import Mathlib

/-!
# Section-tree editor: formal model and verification

A shallow embedding of the section-tree editor
(`LessonView.tsx`, `SectionRenderer.tsx`, `SectionInput.tsx`): the React
element tree is modelled as a first-order tree (`RNode`), and the tree
algorithms (`hasSectionId`, `replaceSectionContent`, `deepCloneWithProps`,
`getSectionIdFromElement`) and the store transitions (`handleAddSection`,
`handleReorder`, `handleDeleteSection`) are translated function by function
from the source.  JavaScript truthiness on strings (empty string is falsy)
is made explicit via `truthyStr`; callbacks are opaque tokens; the
`postMessage` side channel is reified as a returned `HostMsg` value.
-/

/-- The `type` of a React element: a host DOM element (`typeof type ===
'string'`), the `Fragment` sentinel, or a custom (composite) component
identified by its name. -/
inductive NodeKind where
  | host (tag : String)
  | fragment
  | composite (name : String)
deriving DecidableEq

/-- The capability bundle injected by `deepCloneWithProps`:
`{ isPreview, onEditSection, onAddSection }`.  The two callbacks are
modelled as opaque tokens. -/
structure Capabilities where
  isPreview : Bool
  onEditSection : Nat
  onAddSection : Nat
deriving DecidableEq

mutual
/-- A React node: either a non-element (`isValidElement` false, e.g. a text
node, modelled by `raw`) or an element with a `type` (`kind`), a stable
`key`, the `id` prop, an opaque bag of further props, optionally the
injected capability keys (`caps = some c` iff the element carries the
injected bundle with values `c`), and its children. -/
inductive RNode where
  | raw (s : String)
  | elem (kind : NodeKind) (key : Option String) (id : Option String)
         (props : List (String × String)) (caps : Option Capabilities)
         (children : RNodes)
deriving DecidableEq

/-- The (flattened) list of children of an element. -/
inductive RNodes where
  | nil
  | cons (head : RNode) (tail : RNodes)
deriving DecidableEq
end

/-- JavaScript truthiness of a possibly-absent string: `undefined` and the
empty string are falsy. -/
def truthyStr : Option String → Bool
  | none => false
  | some s => !s.isEmpty

/-- JavaScript `a || b` where `a` is a possibly-absent string and `b` a
string (used for `getSectionIdFromElement(s) || 'unknown'`). -/
def jsOrStr (a : Option String) (b : String) : String :=
  match a with
  | some s => if s.isEmpty then b else s
  | none => b

/-- JavaScript `a || b` on two possibly-absent strings (used for
`section.props.id || ...`). -/
def jsOrOpt (a b : Option String) : Option String :=
  if truthyStr a then a else b

/-- Truthiness of `element.props.children`: no children is `undefined`
(falsy); a single text child is falsy iff the text is empty; a single
element child is an object (truthy); two or more children form an array
(truthy). -/
def childrenTruthy : RNodes → Bool
  | .nil => false
  | .cons (.raw s) .nil => !s.isEmpty
  | _ => true

/-- `isValidElement`. -/
def isElement : RNode → Bool
  | .raw _ => false
  | .elem _ _ _ _ _ _ => true

mutual
/-- `hasSectionId` (LessonView.tsx): true iff the element's `id` prop
equals `targetId` or some child recursively contains it
(`Children.forEach` over the children with a found-flag). -/
def hasSectionId (element : RNode) (targetId : String) : Bool :=
  match element with
  | .raw _ => false
  | .elem _ _ id _ _ children =>
      id == some targetId || hasSectionIdAny children targetId

/-- The `Children.forEach` loop of `hasSectionId`: true iff some child
satisfies `hasSectionId`. -/
def hasSectionIdAny (children : RNodes) (targetId : String) : Bool :=
  match children with
  | .nil => false
  | .cons c rest => hasSectionId c targetId || hasSectionIdAny rest targetId
end

mutual
/-- `replaceSectionContent` (LessonView.tsx): when the element's `id` prop
equals `targetId`, `cloneElement(element, {}, newContent)` — same kind,
key, id, props, injected caps, children replaced wholesale; otherwise, if
`element.props.children` is truthy, rebuild with every child mapped
recursively; otherwise return the element unchanged.  Non-elements are
returned unchanged. -/
def replaceSectionContent (element : RNode) (targetId : String)
    (newContent : RNodes) : RNode :=
  match element with
  | .raw s => .raw s
  | .elem k key id props caps children =>
      if id == some targetId then
        .elem k key id props caps newContent
      else if childrenTruthy children then
        .elem k key id props caps
          (replaceSectionContentList children targetId newContent)
      else
        .elem k key id props caps children

/-- The `Children.map` of `replaceSectionContent`. -/
def replaceSectionContentList (children : RNodes) (targetId : String)
    (newContent : RNodes) : RNodes :=
  match children with
  | .nil => .nil
  | .cons c rest =>
      .cons (replaceSectionContent c targetId newContent)
            (replaceSectionContentList rest targetId newContent)
end

/-- `shouldInjectProps` of `deepCloneWithProps` (SectionRenderer.tsx):
inject iff the element is neither a host component
(`typeof element.type === 'string'`) nor a `Fragment`. -/
def shouldInjectProps : NodeKind → Bool
  | .host _ => false
  | .fragment => false
  | .composite _ => true

mutual
/-- `deepCloneWithProps` (SectionRenderer.tsx): clone the element, merging
the capability bundle into its props iff `shouldInjectProps`, and rebuild
the children by `element.props.children ? Children.map(children, rec) :
undefined`. -/
def deepCloneWithProps (element : RNode) (ps : Capabilities) : RNode :=
  match element with
  | .raw s => .raw s
  | .elem k key id props caps children =>
      .elem k key id props
        (if shouldInjectProps k then some ps else caps)
        (if childrenTruthy children then deepCloneList children ps else .nil)

/-- The `Children.map` of `deepCloneWithProps`. -/
def deepCloneList (children : RNodes) (ps : Capabilities) : RNodes :=
  match children with
  | .nil => .nil
  | .cons c rest => .cons (deepCloneWithProps c ps) (deepCloneList rest ps)
end

mutual
/-- `getSectionIdFromElement` (LessonView.tsx): for a valid element,
return its `id` prop when truthy; otherwise scan the children
(`Children.forEach` with a `foundId` accumulator, guarded by
`element.props.children`). -/
def getSectionIdFromElement (element : RNode) : Option String :=
  match element with
  | .raw _ => none
  | .elem _ _ id _ _ children =>
      if truthyStr id then id
      else if childrenTruthy children then
        getSectionIdFromList children none
      else none

/-- The `Children.forEach` loop of `getSectionIdFromElement`: `foundId` is
the accumulator, overwritten by the recursive result whenever it is still
falsy and the child is a valid element. -/
def getSectionIdFromList (children : RNodes) (foundId : Option String) :
    Option String :=
  match children with
  | .nil => foundId
  | .cons c rest =>
      getSectionIdFromList rest
        (if !truthyStr foundId && isElement c then getSectionIdFromElement c
         else foundId)
end

/-- An outbound `window.parent.postMessage` payload. -/
inductive HostMsg where
  | reorder (sectionIds : List String)
  | delete (sectionId : String)
deriving DecidableEq

/-- `String.prototype.startsWith`, at the character-sequence level. -/
def jsStartsWith (s p : String) : Bool :=
  p.data.isPrefixOf s.data

/-- Dropping the first `n` characters of a string. -/
def jsDropChars (s : String) (n : Nat) : String :=
  ⟨s.data.drop n⟩

/-- The per-element lambda of `handleReorder` (LessonView.tsx): if the
stable key is truthy and starts with `'layout-'`, return
`key.replace('layout-', '')` (which, given the `startsWith` guard, strips
that leading occurrence, i.e. drops the first 7 characters); otherwise
`getSectionIdFromElement(s) || 'unknown'`. -/
def reorderSectionId (s : RNode) : String :=
  match s with
  | .raw r => jsOrStr (getSectionIdFromElement (.raw r)) "unknown"
  | .elem k key id props caps children =>
      match key with
      | some kstr =>
          if !kstr.isEmpty && jsStartsWith kstr "layout-" then
            jsDropChars kstr 7
          else jsOrStr
            (getSectionIdFromElement (.elem k key id props caps children))
            "unknown"
      | none =>
          jsOrStr
            (getSectionIdFromElement (.elem k key id props caps children))
            "unknown"

/-- `handleReorder` (LessonView.tsx): store `newSections` verbatim and
post `{ type: 'commit-section-reorder', sectionIds }` with the ids derived
element-wise by `reorderSectionId`. -/
def handleReorder (newSections : List RNode) : List RNode × HostMsg :=
  (newSections, .reorder (newSections.map reorderSectionId))

/-- `handleDeleteSection` (LessonView.tsx): keep exactly the top-level
elements that do NOT contain `sectionId`, and post
`{ type: 'commit-section-delete', sectionId }`. -/
def handleDeleteSection (sections : List RNode) (sectionId : String) :
    List RNode × HostMsg :=
  (sections.filter (fun sec => !hasSectionId sec sectionId),
   .delete sectionId)

/-- `Array.prototype.findIndex`, with `-1` modelled as `none`. -/
def jsFindIndex (p : RNode → Bool) : List RNode → Option Nat
  | [] => none
  | s :: rest => if p s then some 0 else (jsFindIndex p rest).map (· + 1)

/-- The placeholder top-level node synthesized by `handleAddSection`
(LessonView.tsx), with `Date.now()` passed in as `now`:
`<FullWidthLayout key={'layout-' + newId} maxWidth="xl"><Section
id={newId}><SectionInput id={newId} onCommit={...} placeholder="Type '/'
for commands"/></Section></FullWidthLayout>` where
`newId = 'section-' + now`. -/
def newSectionNode (now : Nat) : RNode :=
  .elem (.composite "FullWidthLayout")
    (some ("layout-section-" ++ toString now)) none
    [("maxWidth", "xl")] none
    (.cons
      (.elem (.composite "Section") none (some ("section-" ++ toString now))
        [] none
        (.cons
          (.elem (.composite "SectionInput") none
            (some ("section-" ++ toString now))
            [("onCommit", "handleCommitSection"),
             ("placeholder", "Type '/' for commands")] none .nil)
          .nil))
      .nil)

/-- `handleAddSection` (LessonView.tsx): find the index of the first
top-level section containing `targetId`; if found, splice the freshly
synthesized placeholder in immediately after it
(`[...slice(0, index+1), newSection, ...slice(index+1)]`); otherwise leave
the list unchanged and emit the `console.warn` diagnostic (returned as the
second component). -/
def handleAddSection (sections : List RNode) (targetId : String)
    (now : Nat) : List RNode × Option String :=
  match jsFindIndex (fun sec => hasSectionId sec targetId) sections with
  | some index =>
      (sections.take (index + 1) ++ newSectionNode now ::
        sections.drop (index + 1), none)
  | none => (sections, some ("Could not find section with id: " ++ targetId))

/-- The id resolution of `DraggableSection` (SectionRenderer.tsx):
`section.props.id || (section.props.children &&
isValidElement(section.props.children) ? section.props.children.props.id :
undefined)` — the `children` prop is a single node only when the element
has exactly one child. -/
def soleChildElementId : RNodes → Option String
  | .cons (.elem _ _ id _ _ _) .nil => id
  | _ => none

/-- `sectionId` as computed by `DraggableSection`. -/
def draggableSectionId : RNode → Option String
  | .raw _ => none
  | .elem _ _ id _ _ children => jsOrOpt id (soleChildElementId children)

/-- `handleDelete` of `DraggableSection`: the delete call it forwards to
the store (`none` = no call), emitted only when the resolved `sectionId`
is truthy. -/
def draggableHandleDelete (sec : RNode) : Option String :=
  if truthyStr (draggableSectionId sec) then draggableSectionId sec
  else none

/-- A state-affecting action performed by the `LessonView` initial-load
effect after the asynchronous `loadSections` call resolves. -/
inductive EffectAction where
  | setSections (sections : List RNode)
  | setLoading (loading : Bool)
  | establishWatcher
deriving DecidableEq

/-- The resume point of the `LessonView` `useEffect` async closure
(LessonView.tsx): after `await loadSections(...)` resolves with `secs`
(`none` models a non-array result), the `cancelled` flag is consulted
first; if set, nothing further happens; otherwise the sections state is
set (twice, as in the source), loading is cleared, and in dev mode the
watcher subscription is established. -/
def loadEffectResume (cancelled : Bool) (secs : Option (List RNode))
    (isDev : Bool) : List EffectAction :=
  if cancelled then []
  else
    [.setSections (secs.getD []), .setSections (secs.getD []),
     .setLoading false] ++ (if isDev then [.establishWatcher] else [])

/-- The characters stripped by ECMAScript `String.prototype.trim`:
WhiteSpace (TAB, VT, FF, SP, NBSP, ZWNBSP/BOM and the Unicode
space-separator category Zs) together with the LineTerminators (LF, CR,
LS, PS). -/
def jsWhitespace (c : Char) : Bool :=
  c == ' ' || c == '\t' || c == '\n' || c == '\r' ||
  c.toNat == 0x0B || c.toNat == 0x0C || c.toNat == 0xA0 ||
  c.toNat == 0x1680 || (0x2000 ≤ c.toNat && c.toNat ≤ 0x200A) ||
  c.toNat == 0x2028 || c.toNat == 0x2029 || c.toNat == 0x202F ||
  c.toNat == 0x205F || c.toNat == 0x3000 || c.toNat == 0xFEFF

/-- Truthiness of `value.trim()` (SectionInput.tsx): the value, stripped
of leading and trailing whitespace, is nonempty. -/
def trimmedTruthy (value : String) : Bool :=
  !(((value.data.dropWhile jsWhitespace).reverse.dropWhile
      jsWhitespace).reverse.isEmpty)

/-- `handleKeyDown` of `SectionInput` (SectionInput.tsx): on Enter without
Shift, commit `(id, value)` — the raw, untrimmed value — iff
`value.trim()` is truthy; otherwise no commit (`none`).  The
`preventDefault` DOM side effect is not modelled. -/
def handleKeyDown (id : String) (key : String) (shiftKey : Bool)
    (value : String) : Option (String × String) :=
  if key == "Enter" && !shiftKey then
    if trimmedTruthy value then some (id, value) else none
  else none

/-- Membership of a node in a child list. -/
inductive RMem : RNode → RNodes → Prop where
  | head : ∀ c rest, RMem c (.cons c rest)
  | tail : ∀ {c} d {rest}, RMem c rest → RMem c (.cons d rest)

/-- Spec-level `ContainsId` (spec §4.2): the node's `id` equals the target,
or some descendant — at any depth — satisfies it. -/
inductive ContainsId : RNode → String → Prop where
  | here : ∀ k key props caps children tid,
      ContainsId (.elem k key (some tid) props caps children) tid
  | child : ∀ {k key id props caps children tid c},
      RMem c children → ContainsId c tid →
      ContainsId (.elem k key id props caps children) tid

mutual
/-- The source `hasSectionId` decides the spec-level `ContainsId`. -/
theorem hasSectionId_iff (n : RNode) (tid : String) :
    hasSectionId n tid = true ↔ ContainsId n tid := by
  cases n with
  | raw s =>
      constructor
      · intro h; simp [hasSectionId] at h
      · intro h; cases h
  | elem k key id props caps children =>
      rw [hasSectionId, Bool.or_eq_true, hasSectionIdAny_iff children tid]
      constructor
      · rintro (h | ⟨c, hc, h⟩)
        · cases id with
          | none => simp at h
          | some s =>
              have : s = tid := by simpa using h
              subst this; exact .here ..
        · exact .child hc h
      · intro hcont
        cases hcont with
        | here => left; simp
        | child hm hc => right; exact ⟨_, hm, hc⟩

/-- The `Children.forEach` loop of `hasSectionId` decides existence of a
containing child. -/
theorem hasSectionIdAny_iff (cs : RNodes) (tid : String) :
    hasSectionIdAny cs tid = true ↔ ∃ c, RMem c cs ∧ ContainsId c tid := by
  cases cs with
  | nil =>
      constructor
      · intro h; simp [hasSectionIdAny] at h
      · rintro ⟨c, hc, h⟩; cases hc
  | cons c rest =>
      rw [hasSectionIdAny, Bool.or_eq_true, hasSectionId_iff c tid,
        hasSectionIdAny_iff rest tid]
      constructor
      · rintro (h | ⟨d, hd, h⟩)
        · exact ⟨c, .head .., h⟩
        · exact ⟨d, .tail _ hd, h⟩
      · rintro ⟨d, hd, h⟩
        cases hd with
        | head => exact Or.inl h
        | tail _ hm => exact Or.inr ⟨d, hm, h⟩
end

instance (n : RNode) (tid : String) : Decidable (ContainsId n tid) :=
  decidable_of_iff _ (hasSectionId_iff n tid)

mutual
/-- Spec model of `ReplaceContentById` (spec §4.2, written from the spec's
words): depth-first; when the node's `id` equals `targetId`, a new node
identical to it except its children are replaced wholesale by
`newContent`; otherwise each child is independently replaced recursively
and reassembled in the same order; non-elements are unchanged. -/
def replaceSpecModel (element : RNode) (targetId : String)
    (newContent : RNodes) : RNode :=
  match element with
  | .raw s => .raw s
  | .elem k key id props caps children =>
      if id = some targetId then .elem k key id props caps newContent
      else .elem k key id props caps
        (replaceSpecModelList children targetId newContent)

/-- Child-list traversal of `replaceSpecModel`. -/
def replaceSpecModelList (children : RNodes) (targetId : String)
    (newContent : RNodes) : RNodes :=
  match children with
  | .nil => .nil
  | .cons c rest =>
      .cons (replaceSpecModel c targetId newContent)
            (replaceSpecModelList rest targetId newContent)
end

mutual
/-- The source `replaceSectionContent` coincides with the spec model on
every tree: the only differences are the truthiness guard on
`props.children` (skipping the rebuild exactly when the child list maps to
itself) and `==` versus `=` on ids. -/
theorem replaceSectionContent_eq_spec (n : RNode) (tid : String)
    (newContent : RNodes) :
    replaceSectionContent n tid newContent = replaceSpecModel n tid newContent := by
  cases n with
  | raw s => rfl
  | elem k key id props caps children =>
      rw [replaceSectionContent, replaceSpecModel]
      by_cases hid : id = some tid
      · simp [hid]
      · have hid' : (id == some tid) = false := by
          simpa [beq_iff_eq] using hid
        rw [hid', if_neg (by simp), if_neg hid]
        by_cases hct : childrenTruthy children = true
        · rw [if_pos hct, replaceSectionContentList_eq_spec]
        · rw [if_neg hct]
          cases children with
          | nil => rfl
          | cons c rest =>
              cases c with
              | raw s =>
                  cases rest with
                  | nil =>
                      have hs : s.isEmpty = true := by
                        by_contra hne
                        simp [childrenTruthy, hne] at hct
                      simp [replaceSpecModelList, replaceSectionContent,
                        replaceSpecModel]
                  | cons d rest2 => simp [childrenTruthy] at hct
              | elem k2 key2 id2 props2 caps2 children2 =>
                  simp [childrenTruthy] at hct

/-- Child-list version of `replaceSectionContent_eq_spec`. -/
theorem replaceSectionContentList_eq_spec (cs : RNodes) (tid : String)
    (newContent : RNodes) :
    replaceSectionContentList cs tid newContent =
      replaceSpecModelList cs tid newContent := by
  cases cs with
  | nil => rfl
  | cons c rest =>
      rw [replaceSectionContentList, replaceSpecModelList,
        replaceSectionContent_eq_spec c tid newContent,
        replaceSectionContentList_eq_spec rest tid newContent]
end

mutual
/-- When `targetId` occurs nowhere in the node, `replaceSectionContent`
returns the node unchanged. -/
theorem replaceSectionContent_noop (n : RNode) (tid : String)
    (newContent : RNodes) (h : ¬ ContainsId n tid) :
    replaceSectionContent n tid newContent = n := by
  cases n with
  | raw s => rfl
  | elem k key id props caps children =>
      have hid : (id == some tid) = false := by
        rcases hbe : id == some tid with _ | _
        · rfl
        · exact absurd (by rw [(beq_iff_eq ..).mp hbe]; exact .here ..) h
      have hrest : ∀ c, RMem c children → ¬ ContainsId c tid :=
        fun c hm hc => h (.child hm hc)
      rw [replaceSectionContent, if_neg (by simp [hid])]
      by_cases hct : childrenTruthy children = true
      · rw [if_pos hct, replaceSectionContentList_noop children tid newContent hrest]
      · rw [if_neg hct]

/-- Child-list version of `replaceSectionContent_noop`. -/
theorem replaceSectionContentList_noop (cs : RNodes) (tid : String)
    (newContent : RNodes) (h : ∀ c, RMem c cs → ¬ ContainsId c tid) :
    replaceSectionContentList cs tid newContent = cs := by
  cases cs with
  | nil => rfl
  | cons c rest =>
      rw [replaceSectionContentList,
        replaceSectionContent_noop c tid newContent (h c (.head ..)),
        replaceSectionContentList_noop rest tid newContent
          (fun d hm => h d (.tail _ hm))]
end

mutual
/-- Spec model of `ExtractId` (spec §4.2, written from the spec's words):
the node's own id if present (a present id being a non-empty identifier),
otherwise the first non-empty id found among the descendants in order,
pre-order, first match wins. -/
def specExtractId (element : RNode) : Option String :=
  match element with
  | .raw _ => none
  | .elem _ _ id _ _ children =>
      match id with
      | some s => if s.isEmpty then specExtractIdList children else some s
      | none => specExtractIdList children

/-- Pre-order first-match scan of `specExtractId` over a child list. -/
def specExtractIdList (children : RNodes) : Option String :=
  match children with
  | .nil => none
  | .cons c rest =>
      match specExtractId c with
      | some s => some s
      | none => specExtractIdList rest
end

mutual
/-- `getSectionIdFromElement` only ever returns a non-empty id. -/
theorem getSectionIdFromElement_ne_empty (n : RNode) (s : String)
    (h : getSectionIdFromElement n = some s) : s.isEmpty = false := by
  cases n with
  | raw r => simp [getSectionIdFromElement] at h
  | elem k key id props caps children =>
      rw [getSectionIdFromElement] at h
      by_cases ht : truthyStr id = true
      · rw [if_pos ht] at h
        cases id with
        | none => simp [truthyStr] at ht
        | some t =>
            have hts : t = s := by simpa using h
            subst hts
            simpa [truthyStr] using ht
      · rw [if_neg ht] at h
        by_cases hct : childrenTruthy children = true
        · rw [if_pos hct] at h
          exact getSectionIdFromList_ne_empty children none (by simp) s h
        · rw [if_neg hct] at h; simp at h

/-- Accumulator version of `getSectionIdFromElement_ne_empty`. -/
theorem getSectionIdFromList_ne_empty (cs : RNodes) (acc : Option String)
    (hacc : ∀ t, acc = some t → t.isEmpty = false) (s : String)
    (h : getSectionIdFromList cs acc = some s) : s.isEmpty = false := by
  cases cs with
  | nil => exact hacc s (by simpa [getSectionIdFromList] using h)
  | cons c rest =>
      rw [getSectionIdFromList] at h
      refine getSectionIdFromList_ne_empty rest _ ?_ s h
      intro t ht
      by_cases hcond : (!truthyStr acc && isElement c) = true
      · rw [if_pos hcond] at ht
        exact getSectionIdFromElement_ne_empty c t ht
      · rw [if_neg hcond] at ht
        exact hacc t ht
end

/-- A truthy `foundId` accumulator is never overwritten by the
`Children.forEach` loop of `getSectionIdFromElement`. -/
theorem getSectionIdFromList_truthy (cs : RNodes) (acc : Option String)
    (hacc : truthyStr acc = true) : getSectionIdFromList cs acc = acc := by
  cases cs with
  | nil => rfl
  | cons c rest =>
      rw [getSectionIdFromList, if_neg (by simp [hacc])]
      exact getSectionIdFromList_truthy rest acc hacc

mutual
/-- The source `getSectionIdFromElement` computes exactly the spec-level
`ExtractId`. -/
theorem getSectionIdFromElement_eq_spec (n : RNode) :
    getSectionIdFromElement n = specExtractId n := by
  cases n with
  | raw r => rfl
  | elem k key id props caps children =>
      rw [getSectionIdFromElement, specExtractId.eq_def]
      dsimp only
      have hnil : childrenTruthy children = false →
          specExtractIdList children = none := by
        intro hct
        cases children with
        | nil => rfl
        | cons c rest =>
            cases c with
            | raw s =>
                cases rest with
                | nil => simp [specExtractIdList, specExtractId]
                | cons d rest2 => simp [childrenTruthy] at hct
            | elem k2 key2 id2 props2 caps2 children2 =>
                simp [childrenTruthy] at hct
      by_cases ht : truthyStr id = true
      · cases id with
        | none => simp [truthyStr] at ht
        | some t =>
            have hne : t.isEmpty = false := by simpa [truthyStr] using ht
            simp [ht, hne]
      · have hlist : getSectionIdFromList children none = specExtractIdList children :=
          getSectionIdFromList_eq_spec children
        cases id with
        | none =>
            dsimp only
            rw [if_neg ht]
            by_cases hct : childrenTruthy children = true
            · rw [if_pos hct, hlist]
            · rw [if_neg hct, hnil (by simpa using hct)]
        | some t =>
            have hemp : t.isEmpty = true := by
              by_contra hne
              simp [truthyStr, hne] at ht
            dsimp only
            rw [if_neg ht, hemp, if_pos rfl]
            by_cases hct : childrenTruthy children = true
            · rw [if_pos hct, hlist]
            · rw [if_neg hct, hnil (by simpa using hct)]

/-- List version of `getSectionIdFromElement_eq_spec` (with the initial
`undefined` accumulator). -/
theorem getSectionIdFromList_eq_spec (cs : RNodes) :
    getSectionIdFromList cs none = specExtractIdList cs := by
  cases cs with
  | nil => rfl
  | cons c rest =>
      rw [getSectionIdFromList, specExtractIdList]
      cases c with
      | raw s =>
          rw [if_neg (by simp [isElement])]
          exact getSectionIdFromList_eq_spec rest
      | elem k key id props caps children =>
          rw [if_pos (by simp [truthyStr, isElement])]
          rw [getSectionIdFromElement_eq_spec (.elem k key id props caps children)]
          rcases hx : specExtractId (.elem k key id props caps children) with _ | s
          · exact getSectionIdFromList_eq_spec rest
          · have hne : s.isEmpty = false := by
              refine getSectionIdFromElement_ne_empty
                (.elem k key id props caps children) s ?_
              rw [getSectionIdFromElement_eq_spec
                (.elem k key id props caps children), hx]
            exact getSectionIdFromList_truthy rest (some s) (by simp [truthyStr, hne])
end

/-- The stable key of an element. -/
def rootKey : RNode → Option String
  | .raw _ => none
  | .elem _ key _ _ _ _ => key

/-- Spec model of the per-element sectionId derivation on Reorder (spec
§4.4, written from the spec's words): if the element's stable key begins
with the known wrapper marker `'layout-'`, the key with that marker
stripped; else the result of `ExtractId`; else the literal `"unknown"`. -/
def specReorderId (s : RNode) : String :=
  match rootKey s with
  | some k =>
      if jsStartsWith k "layout-" then jsDropChars k 7
      else (specExtractId s).getD "unknown"
  | none => (specExtractId s).getD "unknown"

/-- `getSectionIdFromElement(s) || 'unknown'` equals
`(ExtractId s).getD "unknown"`. -/
theorem jsOrStr_extract (n : RNode) :
    jsOrStr (getSectionIdFromElement n) "unknown" =
      (specExtractId n).getD "unknown" := by
  rcases hx : getSectionIdFromElement n with _ | s
  · rw [← getSectionIdFromElement_eq_spec, hx]; rfl
  · have hne := getSectionIdFromElement_ne_empty n s hx
    rw [← getSectionIdFromElement_eq_spec, hx]
    simp [jsOrStr, hne]

/-- The `handleReorder` per-element lambda computes exactly the spec-level
derivation. -/
theorem reorderSectionId_eq_spec (s : RNode) :
    reorderSectionId s = specReorderId s := by
  cases s with
  | raw r => rfl
  | elem k key id props caps children =>
      cases key with
      | none => exact jsOrStr_extract _
      | some kstr =>
          simp only [reorderSectionId, specReorderId, rootKey]
          by_cases hemp : kstr.isEmpty = true
          · have hk : kstr = "" := (String.isEmpty_iff kstr).mp hemp
            subst hk
            rw [if_neg (by decide), if_neg (by decide)]
            exact jsOrStr_extract _
          · by_cases hsw : jsStartsWith kstr "layout-" = true
            · rw [if_pos (by simp [hemp, hsw]), if_pos hsw]
            · rw [if_neg (by simp [hsw]), if_neg (by simp [hsw])]
              exact jsOrStr_extract _

mutual
/-- No node of the tree carries any of the injected capability keys. -/
def capsFree : RNode → Bool
  | .raw _ => true
  | .elem _ _ _ _ caps children => caps == none && capsFreeList children

/-- List version of `capsFree`. -/
def capsFreeList : RNodes → Bool
  | .nil => true
  | .cons c rest => capsFree c && capsFreeList rest
end

mutual
/-- Spec property P4, at every depth: an injection-eligible (Composite)
element carries exactly the full bundle `c`, and an ineligible (host or
Fragment, i.e. Opaque) element carries none of the capability keys. -/
def injectionOk (c : Capabilities) : RNode → Bool
  | .raw _ => true
  | .elem k _ _ _ caps children =>
      (if shouldInjectProps k then caps == some c else caps == none) &&
        injectionOkList c children

/-- List version of `injectionOk`. -/
def injectionOkList (c : Capabilities) : RNodes → Bool
  | .nil => true
  | .cons x rest => injectionOk c x && injectionOkList c rest
end

mutual
/-- On a capability-free input, `deepCloneWithProps` places the full
bundle on every Composite element and nothing on any Opaque element, at
every depth. -/
theorem deepClone_injectionOk (n : RNode) (c : Capabilities)
    (h : capsFree n = true) : injectionOk c (deepCloneWithProps n c) = true := by
  cases n with
  | raw s => rfl
  | elem k key id props caps children =>
      rw [capsFree] at h
      have h1 : caps = none := by
        have := (Bool.and_eq_true ..).mp h |>.1
        simpa using this
      have h2 : capsFreeList children = true := (Bool.and_eq_true ..).mp h |>.2
      rw [deepCloneWithProps, injectionOk, Bool.and_eq_true]
      constructor
      · by_cases hk : shouldInjectProps k = true
        · simp [hk]
        · simp only [Bool.not_eq_true] at hk
          simp [hk, h1]
      · by_cases hct : childrenTruthy children = true
        · rw [if_pos hct]
          exact deepCloneList_injectionOk children c h2
        · rw [if_neg hct]; rfl

/-- List version of `deepClone_injectionOk`. -/
theorem deepCloneList_injectionOk (cs : RNodes) (c : Capabilities)
    (h : capsFreeList cs = true) :
    injectionOkList c (deepCloneList cs c) = true := by
  cases cs with
  | nil => rfl
  | cons x rest =>
      rw [capsFreeList, Bool.and_eq_true] at h
      rw [deepCloneList, injectionOkList, Bool.and_eq_true]
      exact ⟨deepClone_injectionOk x c h.1, deepCloneList_injectionOk rest c h.2⟩
end

/-- `findIndex` characterization: result `i` is in range, satisfies the
test, and is the first index to do so. -/
theorem jsFindIndex_eq_some_iff (p : RNode → Bool) :
    ∀ (l : List RNode) (i : Nat),
      jsFindIndex p l = some i ↔
        (i < l.length ∧ p (l.getD i (.raw "")) = true ∧
          ∀ j, j < i → p (l.getD j (.raw "")) = false) := by
  intro l
  induction l with
  | nil => intro i; simp [jsFindIndex]
  | cons s rest ih =>
      intro i
      rw [jsFindIndex]
      by_cases hp : p s = true
      · rw [if_pos hp]
        constructor
        · intro h
          have hi : i = 0 := by simpa using h.symm
          subst hi
          exact ⟨by simp, by simpa using hp, by omega⟩
        · rintro ⟨hlen, hpi, hbefore⟩
          rcases Nat.eq_zero_or_pos i with hz | hpos
          · subst hz; rfl
          · have h0 := hbefore 0 hpos
            rw [List.getD_cons_zero] at h0
            rw [h0] at hp; cases hp
      · rw [if_neg hp]
        have hps : p s = false := by simpa using hp
        constructor
        · intro h
          rcases hrest : jsFindIndex p rest with _ | i2
          · rw [hrest] at h; simp at h
          · rw [hrest] at h
            have hi : i2 + 1 = i := by simpa using h
            subst hi
            obtain ⟨hl, hpi, hb⟩ := (ih i2).mp hrest
            refine ⟨by simpa using Nat.succ_lt_succ hl, by simpa using hpi, ?_⟩
            intro j hj
            cases j with
            | zero => simpa using hps
            | succ j2 =>
                rw [List.getD_cons_succ]
                exact hb j2 (Nat.lt_of_succ_lt_succ hj)
        · rintro ⟨hlen, hpi, hbefore⟩
          cases i with
          | zero =>
              rw [List.getD_cons_zero] at hpi
              rw [hpi] at hps; cases hps
          | succ i2 =>
              have hr : jsFindIndex p rest = some i2 := by
                refine (ih i2).mpr ⟨Nat.lt_of_succ_lt_succ hlen, ?_, ?_⟩
                · simpa [List.getD_cons_succ] using hpi
                · intro j hj
                  have := hbefore (j + 1) (Nat.succ_lt_succ hj)
                  simpa [List.getD_cons_succ] using this
              rw [hr]; rfl

/-- `findIndex` returns `-1` (here `none`) iff no element satisfies the
test. -/
theorem jsFindIndex_eq_none_iff (p : RNode → Bool) :
    ∀ l : List RNode, jsFindIndex p l = none ↔ ∀ s ∈ l, p s = false := by
  intro l
  induction l with
  | nil => simp [jsFindIndex]
  | cons s rest ih =>
      rw [jsFindIndex]
      by_cases hp : p s = true
      · rw [if_pos hp]
        simp only [reduceCtorEq, false_iff]
        intro hall
        have := hall s (by simp)
        rw [this] at hp; cases hp
      · rw [if_neg hp]
        have hps : p s = false := by simpa using hp
        constructor
        · intro h s2 hs2
          rcases List.mem_cons.mp hs2 with rfl | hmem
          · exact hps
          · rcases hrest : jsFindIndex p rest with _ | i2
            · exact (ih.mp hrest) s2 hmem
            · rw [hrest] at h; simp at h
        · intro hall
          have : jsFindIndex p rest = none :=
            ih.mpr fun s2 hs2 => hall s2 (by simp [hs2])
          rw [this]; rfl

/-- Index `i` names the first top-level element that transitively contains
`tid` (spec-level). -/
def isFirstOwner (l : List RNode) (tid : String) (i : Nat) : Prop :=
  i < l.length ∧ ContainsId (l.getD i (.raw "")) tid ∧
    ∀ j, j < i → ¬ ContainsId (l.getD j (.raw "")) tid

/-- The `findIndex`/`hasSectionId` search of `handleAddSection` finds
exactly the first spec-level owner. -/
theorem jsFindIndex_hasSectionId_iff (l : List RNode) (tid : String) (i : Nat) :
    jsFindIndex (fun sec => hasSectionId sec tid) l = some i ↔
      isFirstOwner l tid i := by
  rw [jsFindIndex_eq_some_iff]
  unfold isFirstOwner
  constructor
  · rintro ⟨h1, h2, h3⟩
    refine ⟨h1, (hasSectionId_iff _ tid).mp h2, fun j hj hc => ?_⟩
    have := h3 j hj
    rw [(hasSectionId_iff _ tid).mpr hc] at this
    cases this
  · rintro ⟨h1, h2, h3⟩
    refine ⟨h1, (hasSectionId_iff _ tid).mpr h2, fun j hj => ?_⟩
    have := h3 j hj
    rcases hb : hasSectionId (l.getD j (.raw "")) tid with _ | _
    · rfl
    · exact absurd ((hasSectionId_iff _ tid).mp hb) this

/-- Element at the splice point of `take (i+1) ++ x :: drop (i+1)`. -/
theorem getD_append_length (l1 : List RNode) (x : RNode) (l2 : List RNode)
    (d : RNode) : (l1 ++ x :: l2).getD l1.length d = x := by
  induction l1 with
  | nil => rfl
  | cons a rest ih => simpa using ih

/-- The `type` of an element (`none` for non-elements). -/
def rootKind : RNode → Option NodeKind
  | .raw _ => none
  | .elem k _ _ _ _ _ => some k

/-- The id resolution of `DraggableSection` as amended: the node's own id
when non-empty, otherwise the `id` prop of its sole direct element child —
one level deep only, with no positional fallback. -/
def resolveIdAmended : RNode → Option String
  | .raw _ => none
  | .elem _ _ (some s) _ _ children =>
      if s.isEmpty then soleChildElementId children else some s
  | .elem _ _ none _ _ children => soleChildElementId children

/-- All characters of `l.dropWhile p` satisfy `p` iff all of `l` do. -/
theorem dropWhile_all_iff (p : Char → Bool) (l : List Char) :
    (∀ x ∈ l.dropWhile p, p x = true) ↔ ∀ x ∈ l, p x = true := by
  constructor
  · intro h x hx
    rcases List.mem_append.mp
        (by rw [List.takeWhile_append_dropWhile (p := p)]; exact hx) with htk | hdr
    · exact List.mem_takeWhile_imp htk
    · exact h x hdr
  · intro h x hx
    exact h x ((List.dropWhile_sublist p).subset hx)

/-- `value.trim()` is truthy iff the value contains at least one
non-whitespace character. -/
theorem trimmedTruthy_iff (value : String) :
    trimmedTruthy value = true ↔ ∃ c ∈ value.data, jsWhitespace c = false := by
  unfold trimmedTruthy
  rw [Bool.not_eq_eq_eq_not, Bool.not_true, List.isEmpty_eq_false]
  rw [ne_eq, List.reverse_eq_nil_iff, List.dropWhile_eq_nil_iff]
  constructor
  · intro h
    by_contra hall
    push_neg at hall
    refine h ?_
    intro x hx
    have hx2 : x ∈ value.data.dropWhile jsWhitespace := List.mem_reverse.mp hx
    have hx3 : x ∈ value.data := (List.dropWhile_sublist _).subset hx2
    rcases hb : jsWhitespace x with _ | _
    · exact absurd hb (hall x hx3)
    · rfl
  · rintro ⟨c, hc, hcw⟩ hall
    have : ∀ x ∈ value.data, jsWhitespace x = true := by
      refine (dropWhile_all_iff _ _).mp ?_
      intro x hx
      exact hall x (List.mem_reverse.mpr hx)
    rw [this c hc] at hcw
    cases hcw

/-- A bare Section element with the given id (as hydrated from the section
configuration). -/
def sampleSection (i : String) : RNode :=
  .elem (.composite "Section") none (some i) [] none .nil

/-- A Section wrapped in the `FullWidthLayout` structural wrapper with key
`'layout-' + id`, as in the section configuration. -/
def sampleWrapper (i : String) : RNode :=
  .elem (.composite "FullWidthLayout") (some ("layout-" ++ i)) none
    [("maxWidth", "xl")] none (.cons (sampleSection i) .nil)

/-- A Section nested in a `SplitLayout` structural wrapper. -/
def splitSibling : RNode :=
  .elem (.composite "SplitLayout") (some "split-1") none [("ratio", "1:1")]
    none (.cons (sampleSection "s1") .nil)

/-- C1: on any capability-free tree and any capability bundle, the
prop-injection clone `deepCloneWithProps` places the full bundle on every
Composite element and none of the injected keys on any Opaque (host or
Fragment) element, recursively at every depth — children of Opaque nodes
are still processed, so Composite descendants nested inside Opaque
wrappers also receive the bundle. -/
theorem injection_respects_kind (t : RNode) (c : Capabilities)
    (h : capsFree t = true) :
    injectionOk c (deepCloneWithProps t c) = true :=
  deepClone_injectionOk t c h

/-- Witness for C1: a host `div` wrapping a Section wrapping a Fragment
wrapping a composite leaf. -/
theorem injection_respects_kind_witness :
    capsFree (.elem (.host "div") none none [] none
      (.cons (.elem (.composite "Section") none (some "s1") [] none
        (.cons (.elem .fragment none none [] none
          (.cons (.elem (.composite "EditableText") none none [] none .nil)
            .nil)) .nil)) .nil)) = true
    ∧ injectionOk ⟨true, 0, 1⟩
        (deepCloneWithProps
          (.elem (.host "div") none none [] none
            (.cons (.elem (.composite "Section") none (some "s1") [] none
              (.cons (.elem .fragment none none [] none
                (.cons (.elem (.composite "EditableText") none none [] none
                  .nil) .nil)) .nil)) .nil)) ⟨true, 0, 1⟩) = true :=
  ⟨by decide, injection_respects_kind _ _ (by decide)⟩

/-- C2: `replaceSectionContent` coincides, on every tree, with the
spec-level `ReplaceContentById` model, which replaces exactly the children
of each node whose id equals the target (preserving kind, key, id and all
other props) and reassembles every other node from its recursively
processed children in order — so when the id occurs exactly once, exactly
that node's children change and all sibling subtrees are structurally
identical. -/
theorem replace_content_matches_spec (e : RNode) (tid : String)
    (newContent : RNodes) :
    replaceSectionContent e tid newContent = replaceSpecModel e tid newContent :=
  replaceSectionContent_eq_spec e tid newContent

/-- C3: `handleDeleteSection` keeps exactly the top-level elements that do
not transitively contain the id — the whole owning top-level element is
removed however deeply the id is nested — and posts the delete
notification carrying that id. -/
theorem delete_removes_owners (l : List RNode) (tid : String) :
    (handleDeleteSection l tid).1 = l.filter (fun sec => !hasSectionId sec tid)
    ∧ (∀ sec : RNode,
        sec ∈ (handleDeleteSection l tid).1 ↔ sec ∈ l ∧ ¬ ContainsId sec tid)
    ∧ (handleDeleteSection l tid).2 = HostMsg.delete tid := by
  refine ⟨rfl, ?_, rfl⟩
  intro sec
  rw [show (handleDeleteSection l tid).1 =
    l.filter (fun sec => !hasSectionId sec tid) from rfl]
  rw [List.mem_filter]
  constructor
  · rintro ⟨hmem, hb⟩
    refine ⟨hmem, fun hc => ?_⟩
    rw [(hasSectionId_iff sec tid).mpr hc] at hb
    cases hb
  · rintro ⟨hmem, hnc⟩
    refine ⟨hmem, ?_⟩
    rcases hb : hasSectionId sec tid with _ | _
    · rfl
    · exact absurd ((hasSectionId_iff sec tid).mp hb) hnc

/-- The placeholder id is non-empty, hence addressable via `ExtractId`. -/
theorem newSectionNode_extract (now : Nat) :
    specExtractId (newSectionNode now) = some ("section-" ++ toString now) := by
  have hne : ("section-" ++ toString now) ≠ "" := by
    intro h
    have hlen := congrArg String.length h
    rw [String.length_append] at hlen
    have h8 : ("section-").length = 8 := by decide
    have h0 : ("" : String).length = 0 := rfl
    rw [h8, h0] at hlen
    omega
  have hemp : ("section-" ++ toString now).isEmpty = false := by
    rcases hb : ("section-" ++ toString now).isEmpty with _ | _
    · rfl
    · exact absurd ((String.isEmpty_iff _).mp hb) hne
  rw [newSectionNode, specExtractId.eq_def]
  dsimp only
  rw [specExtractIdList.eq_def]
  dsimp only
  rw [specExtractId.eq_def]
  dsimp only
  rw [hemp]
  rfl

/-- C4: `handleAddSection` splices the freshly synthesized placeholder —
whose minted id is `'section-' + now` — immediately after the first
top-level element containing the target id, leaving all other elements in
place and growing the list by exactly one; when no top-level element
contains the id, the list is unchanged and the `console.warn` diagnostic
is emitted (the operation is total: no exception path exists). -/
theorem add_after_first_owner (l : List RNode) (tid : String) (now : Nat) :
    (∀ i, isFirstOwner l tid i →
        (handleAddSection l tid now).1 =
          l.take (i + 1) ++ newSectionNode now :: l.drop (i + 1)
      ∧ (handleAddSection l tid now).1.length = l.length + 1
      ∧ (handleAddSection l tid now).2 = none)
    ∧ ((∀ sec ∈ l, ¬ ContainsId sec tid) →
        (handleAddSection l tid now).1 = l
      ∧ (handleAddSection l tid now).2 =
          some ("Could not find section with id: " ++ tid))
    ∧ specExtractId (newSectionNode now) = some ("section-" ++ toString now) := by
  refine ⟨?_, ?_, newSectionNode_extract now⟩
  · intro i hi
    have hfi := (jsFindIndex_hasSectionId_iff l tid i).mpr hi
    unfold handleAddSection
    rw [hfi]
    refine ⟨rfl, ?_, rfl⟩
    have hil : i < l.length := hi.1
    simp only [List.length_append, List.length_cons, List.length_take,
      List.length_drop]
    omega
  · intro hnone
    have hfi : jsFindIndex (fun sec => hasSectionId sec tid) l = none := by
      rw [jsFindIndex_eq_none_iff]
      intro sec hsec
      rcases hb : hasSectionId sec tid with _ | _
      · rfl
      · exact absurd ((hasSectionId_iff sec tid).mp hb) (hnone sec hsec)
    unfold handleAddSection
    rw [hfi]
    exact ⟨rfl, rfl⟩

/-- Witness for C4: Scenario A (insert after the first wrapper) and the
no-op diagnostic for an absent id. -/
theorem add_after_first_owner_witness :
    isFirstOwner [sampleWrapper "s1", sampleWrapper "s2"] "s1" 0
    ∧ (handleAddSection [sampleWrapper "s1", sampleWrapper "s2"] "s1" 5).1 =
        [sampleWrapper "s1", newSectionNode 5, sampleWrapper "s2"]
    ∧ (∀ sec ∈ [sampleWrapper "s1", sampleWrapper "s2"], ¬ ContainsId sec "zz")
    ∧ (handleAddSection [sampleWrapper "s1", sampleWrapper "s2"] "zz" 5).1 =
        [sampleWrapper "s1", sampleWrapper "s2"] := by
  have h1 : isFirstOwner [sampleWrapper "s1", sampleWrapper "s2"] "s1" 0 := by
    refine ⟨by decide, by decide, ?_⟩
    intro j hj
    omega
  have h2 : ∀ sec ∈ [sampleWrapper "s1", sampleWrapper "s2"],
      ¬ ContainsId sec "zz" := by decide
  refine ⟨h1, ?_, h2, ?_⟩
  · have := ((add_after_first_owner [sampleWrapper "s1", sampleWrapper "s2"]
      "s1" 5).1 0 h1).1
    rw [this]
    rfl
  · exact ((add_after_first_owner [sampleWrapper "s1", sampleWrapper "s2"]
      "zz" 5).2.1 h2).1

/-- C5: `handleReorder` stores the handed list verbatim — no permutation
validation — and posts reorder ids derived element-wise by the spec rule
(strip the `'layout-'` marker from the stable key, else `ExtractId`, else
`"unknown"`); in particular a wrapper with no ids and key
`"layout-section-42"` resolves to `"section-42"`. -/
theorem reorder_passes_through (l : List RNode) :
    handleReorder l = (l, HostMsg.reorder (l.map specReorderId))
    ∧ reorderSectionId
        (.elem (.composite "FullWidthLayout") (some "layout-section-42") none
          [] none (.cons (.elem (.composite "Section") none none [] none .nil)
            .nil)) = "section-42" := by
  constructor
  · unfold handleReorder
    have hmap : l.map reorderSectionId = l.map specReorderId :=
      List.map_congr_left fun a _ => reorderSectionId_eq_spec a
    rw [hmap]
  · decide

/-- Counterexample to C6: a top-level wrapper whose only id sits two
levels down (inside a host `div`).  Spec-level `ExtractId` finds
`"deep"`; `DraggableSection` resolves no id at all (it looks only at the
node's own `id` prop and its sole direct child's), and there is no
positional fallback, so its delete capability never fires. -/
theorem draggable_resolution_cex :
    draggableSectionId (.elem (.composite "FullWidthLayout") none none []
      none (.cons (.elem (.host "div") none none [] none
        (.cons (.elem (.composite "Section") none (some "deep") [] none .nil)
          .nil)) .nil)) = none
    ∧ specExtractId (.elem (.composite "FullWidthLayout") none none []
        none (.cons (.elem (.host "div") none none [] none
          (.cons (.elem (.composite "Section") none (some "deep") [] none
            .nil) .nil)) .nil)) = some "deep"
    ∧ draggableHandleDelete (.elem (.composite "FullWidthLayout") none none
        [] none (.cons (.elem (.host "div") none none [] none
          (.cons (.elem (.composite "Section") none (some "deep") [] none
            .nil) .nil)) .nil)) = none := by
  refine ⟨by decide, ?_, by decide⟩
  decide

/-- C6 (amended): `DraggableSection` resolves the id as the node's own id
when non-empty, otherwise as the `id` prop of its sole direct element
child — one level only, with no recursive `ExtractId` search and no
positional fallback — and its `onDelete` calls the store's delete entry
point exactly when the resolved id is non-empty. -/
theorem draggable_resolution_amended (n : RNode) :
    draggableSectionId n = resolveIdAmended n
    ∧ (∀ i, draggableHandleDelete n = some i ↔
        (resolveIdAmended n = some i ∧ i ≠ "")) := by
  have h1 : draggableSectionId n = resolveIdAmended n := by
    cases n with
    | raw s => rfl
    | elem k key id props caps children =>
        cases id with
        | none => rfl
        | some s =>
            rw [draggableSectionId, resolveIdAmended, jsOrOpt]
            by_cases hemp : s.isEmpty = true
            · rw [if_neg (by simp [truthyStr, hemp]), if_pos hemp]
            · rw [if_pos (by simp [truthyStr, hemp]),
                if_neg (by simpa using hemp)]
  refine ⟨h1, fun i => ?_⟩
  rw [draggableHandleDelete, h1]
  rcases hr : resolveIdAmended n with _ | s
  · simp [truthyStr]
  · by_cases hemp : s.isEmpty = true
    · rw [if_neg (by simp [truthyStr, hemp])]
      have hs : s = "" := (String.isEmpty_iff s).mp hemp
      subst hs
      constructor
      · intro h; cases h
      · rintro ⟨hsome, hne⟩
        exact absurd (by simpa using hsome.symm) hne
    · rw [if_pos (by simp [truthyStr, hemp])]
      constructor
      · intro h
        refine ⟨h, ?_⟩
        have : s = i := by simpa using h
        subst this
        intro hs
        rw [hs] at hemp
        exact hemp (by decide)
      · rintro ⟨hsome, _⟩
        exact hsome

/-- Counterexample to C7: with the single top-level sibling wrapped in
`SplitLayout`, `handleAddSection` still inserts a `FullWidthLayout`-wrapped
placeholder — the new element does not reuse the sibling's wrapper kind. -/
theorem add_wrapper_cex :
    rootKind ((handleAddSection [splitSibling] "s1" 7).1.getD 0 (.raw ""))
      = some (.composite "SplitLayout")
    ∧ rootKind ((handleAddSection [splitSibling] "s1" 7).1.getD 1 (.raw ""))
      = some (.composite "FullWidthLayout")
    ∧ rootKind ((handleAddSection [splitSibling] "s1" 7).1.getD 1 (.raw ""))
      ≠ rootKind ((handleAddSection [splitSibling] "s1" 7).1.getD 0 (.raw "")) := by
  refine ⟨by decide, by decide, by decide⟩

/-- C7 (amended): the placeholder synthesized by `handleAddSection` is
always embedded in the `FullWidthLayout` structural wrapper, regardless of
the wrapper kind of the sibling it is inserted after; the element at the
splice point is exactly the hard-coded placeholder. -/
theorem add_always_fullwidth (l : List RNode) (tid : String) (now : Nat)
    (i : Nat) (h : isFirstOwner l tid i) :
    (handleAddSection l tid now).1.getD (i + 1) (.raw "") = newSectionNode now
    ∧ rootKind (newSectionNode now) = some (.composite "FullWidthLayout") := by
  have hfi := (jsFindIndex_hasSectionId_iff l tid i).mpr h
  refine ⟨?_, rfl⟩
  unfold handleAddSection
  rw [hfi]
  have hlen : (l.take (i + 1)).length = i + 1 := by
    rw [List.length_take]
    have := h.1
    omega
  have hgd := getD_append_length (l.take (i + 1)) (newSectionNode now)
    (l.drop (i + 1)) (.raw "")
  rw [hlen] at hgd
  exact hgd

/-- Witness for C7 (amended), at the `SplitLayout` sibling of the
counterexample. -/
theorem add_always_fullwidth_witness :
    isFirstOwner [splitSibling] "s1" 0
    ∧ (handleAddSection [splitSibling] "s1" 7).1.getD 1 (.raw "")
      = newSectionNode 7 := by
  have h1 : isFirstOwner [splitSibling] "s1" 0 := by
    refine ⟨by decide, by decide, ?_⟩
    intro j hj
    omega
  exact ⟨h1, (add_always_fullwidth [splitSibling] "s1" 7 0 h1).1⟩

/-- C8: when the target id occurs nowhere in the tree,
`replaceSectionContent` returns the tree structurally unchanged, for any
replacement content. -/
theorem replace_noop_on_absence (e : RNode) (tid : String)
    (newContent : RNodes) (h : ¬ ContainsId e tid) :
    replaceSectionContent e tid newContent = e :=
  replaceSectionContent_noop e tid newContent h

/-- Witness for C8: replacing under an absent id on a sample wrapper is
the identity. -/
theorem replace_noop_on_absence_witness :
    ¬ ContainsId (sampleWrapper "s1") "zz"
    ∧ replaceSectionContent (sampleWrapper "s1") "zz"
        (.cons (.raw "hello") .nil) = sampleWrapper "s1" :=
  ⟨by decide, replace_noop_on_absence _ _ _ (by decide)⟩

/-- C9: if the effect was cancelled before the asynchronous load resolved,
the resume path performs no action at all — the loaded sections are never
stored and the watcher subscription is never established; conversely any
performed action implies the flag was unset. -/
theorem cancelled_load_applies_nothing (secs : Option (List RNode))
    (isDev : Bool) :
    loadEffectResume true secs isDev = []
    ∧ (∀ cancelled a, a ∈ loadEffectResume cancelled secs isDev →
        cancelled = false) := by
  refine ⟨rfl, ?_⟩
  intro cancelled a ha
  cases cancelled with
  | false => rfl
  | true => simp [loadEffectResume] at ha

/-- Witness for C9: the non-cancelled path does store sections, and the
theorem applied there concludes the flag was unset. -/
theorem cancelled_load_applies_nothing_witness :
    loadEffectResume true (some []) true = [] ∧ false = false :=
  ⟨(cancelled_load_applies_nothing (some []) true).1,
   (cancelled_load_applies_nothing (some []) true).2 false
     (.setSections []) (by decide)⟩

/-- C10: `SectionInput` commits iff Enter is pressed without Shift and the
value contains at least one non-whitespace character; the committed value
is the raw, untrimmed text (trimming feeds only the emptiness test), and a
whitespace-only value never commits. -/
theorem commit_on_enter_iff (id key : String) (shiftKey : Bool)
    (value : String) (out : String × String) :
    handleKeyDown id key shiftKey value = some out ↔
      (key = "Enter" ∧ shiftKey = false ∧ out = (id, value) ∧
        ∃ c ∈ value.data, jsWhitespace c = false) := by
  unfold handleKeyDown
  by_cases hk : (key == "Enter" && !shiftKey) = true
  · obtain ⟨hkey, hshift⟩ : key = "Enter" ∧ shiftKey = false := by
      have := (Bool.and_eq_true ..).mp hk
      exact ⟨by simpa using this.1, by simpa using this.2⟩
    rw [if_pos hk]
    by_cases ht : trimmedTruthy value = true
    · rw [if_pos ht]
      constructor
      · intro h
        exact ⟨hkey, hshift, by simpa using h.symm,
          (trimmedTruthy_iff value).mp ht⟩
      · rintro ⟨_, _, rfl, _⟩
        rfl
    · rw [if_neg ht]
      constructor
      · intro h; cases h
      · rintro ⟨_, _, _, hex⟩
        exact absurd ((trimmedTruthy_iff value).mpr hex) ht
  · rw [if_neg hk]
    constructor
    · intro h; cases h
    · rintro ⟨hkey, hshift, _, _⟩
      subst hkey
      subst hshift
      exact absurd (by decide) hk
